import Mathlib

/-!
Shallow embedding of the r6n DHT core (a Rust implementation of the R5N
protocol family) and proofs about its routing table, bloom filter, HELLO
block layer and wire codec.

Modelling conventions:
* Byte buffers are `List Nat`, each entry a byte value; machine integers are
  `Nat` with an explicit `% 2 ^ w` wherever Rust release-mode wrapping
  arithmetic matters.
* `Instant::now() - epoch` (the `created` timestamp of a route) is passed in
  as an explicit `now : Nat` parameter, since the clock is an external input.
* SHA-512 (`sha2` crate) and Ed25519 key parsing / signature verification
  (`ed25519-dalek` crate) are external libraries, not code of this
  repository; they appear as opaque function parameters (`digest`,
  `pkValid`, `verify`) so that every theorem holds for the real functions.
* UTF-8 validation of the HELLO address section (`std::str::from_utf8`) is
  likewise abstracted as a boolean parameter `utf8Valid`; the address
  iterator works on the underlying byte sequence, where the NUL separator
  of `str::split_once` is exactly the byte 0.
-/

/-- Leading-zero count of a byte, as `u8::leading_zeros` returns it for
values below 256 (used by `log2_xor_dist` in src/lib.rs). -/
def clz8 (x : Nat) : Nat :=
  if 128 ≤ x then 0 else if 64 ≤ x then 1 else if 32 ≤ x then 2
  else if 16 ≤ x then 3 else if 8 ≤ x then 4 else if 4 ≤ x then 5
  else if 2 ≤ x then 6 else if 1 ≤ x then 7 else 8

/-- The loop of `log2_xor_dist` (src/lib.rs): accumulate leading-zero counts
of the per-byte XORs, stopping at the first byte whose XOR is non-zero. -/
def log2XorDistAux : List Nat → List Nat → Nat
  | x :: xs, y :: ys =>
    let c := clz8 (x ^^^ y)
    if c < 8 then c else 8 + log2XorDistAux xs ys
  | _, _ => 0

/-- `log2_xor_dist` (src/lib.rs): 512 minus the accumulated leading zeros of
the XOR of two 64-byte identifiers. -/
def log2XorDist (a b : List Nat) : Nat :=
  512 - log2XorDistAux a b

/-- `xor` (src/lib.rs): bytewise XOR of two equal-length byte arrays. -/
def xorBytes (x y : List Nat) : List Nat :=
  List.zipWith (fun a b => a ^^^ b) x y

/-- The `Keys` view of src/bloom.rs: reinterpret a 64-byte key as sixteen
big-endian 32-bit words. -/
def keyWords : List Nat → List Nat
  | b0 :: b1 :: b2 :: b3 :: rest =>
      (((b0 * 256 + b1) * 256 + b2) * 256 + b3) :: keyWords rest
  | _ => []

/-- `bf_test_inner` (src/bloom.rs): every derived bit must be set.  The
`assert!(mask < bytes.len())` of the source is carried as a hypothesis of
every theorem about this function. -/
def bfTestInner (bytes : List Nat) (mask : Nat) (key : List Nat) : Bool :=
  (keyWords key).all fun k =>
    ((bytes.getD ((k >>> 3) &&& mask) 0 >>> (k &&& 7)) &&& 1) == 1

/-- One iteration of the `bf_insert_inner` loop (src/bloom.rs): set the
derived bit of one 32-bit word. -/
def insertStep (mask : Nat) (bs : List Nat) (k : Nat) : List Nat :=
  bs.set ((k >>> 3) &&& mask) (bs.getD ((k >>> 3) &&& mask) 0 ||| (1 <<< (k &&& 7)))

/-- `bf_insert_inner` (src/bloom.rs): set every derived bit of the key. -/
def bfInsertInner (bytes : List Nat) (mask : Nat) (key : List Nat) : List Nat :=
  (keyWords key).foldl (insertStep mask) bytes

/-- A routing-table entry (`Route` in src/lib.rs): distance, duration since
the epoch, and the 32 raw bytes of the peer's public key. -/
structure Route where
  dist : Nat
  created : Nat
  peer : List Nat
deriving DecidableEq

/-- Default `Route` used as the `getD` fallback (never read in bounds). -/
def dRoute : Route := ⟨0, 0, []⟩

/-- Lexicographic comparison of byte lists, as `Ord` on `[u8; 32]` compares
equal-length byte arrays. -/
def listCmp : List Nat → List Nat → Ordering
  | [], [] => Ordering.eq
  | [], _ :: _ => Ordering.lt
  | _ :: _, [] => Ordering.gt
  | x :: xs, y :: ys =>
    match compare x y with
    | Ordering.eq => listCmp xs ys
    | o => o

/-- The derived `Ord` of `Route` (src/lib.rs): lexicographic on
`(dist, created, peer)`. -/
def routeCmp (r s : Route) : Ordering :=
  match compare r.dist s.dist with
  | Ordering.eq =>
    match compare r.created s.created with
    | Ordering.eq => listCmp r.peer s.peer
    | o => o
  | o => o

/-- Strict order on routes induced by `routeCmp`. -/
def routeLt (r s : Route) : Prop := routeCmp r s = Ordering.lt

/-- Modelled from the documented contract of `slice::binary_search` (Rust
std, external to this repository): on a slice sorted in `Route` order it
returns `Ok i` with the element at `i` equal to the probe, or `Err i` with
`i` the insertion index.  Both indices equal the number of elements ordered
strictly below the probe, which is exactly the std result on the sorted,
duplicate-free lists the routing table maintains. -/
def binarySearch (xs : List Route) (t : Route) : Sum Nat Nat :=
  let i := xs.countP fun r => decide (routeCmp r t = Ordering.lt)
  match xs.get? i with
  | some r => if routeCmp r t = Ordering.eq then Sum.inl i else Sum.inr i
  | none => Sum.inr i

/-- `RoutingTable` (src/lib.rs): the local 64-byte PeerId, the per-distance
`Vec<u8>` occupancy counters, and the sorted route list.  The `epoch`
instant is represented implicitly by passing `created` durations directly. -/
structure RoutingTable where
  host : List Nat
  neighbours : List Nat
  routes : List Route
deriving DecidableEq

/-- Outcome of `RoutingTable::insert`: `Ok(())` or `Err(previous peer)`. -/
inductive InsertResult where
  | ok
  | evict (peer : List Nat)
deriving DecidableEq

/-- `Vec::insert` at index `i ≤ len`: shift the tail right. -/
def vecInsert (xs : List Route) (i : Nat) (r : Route) : List Route :=
  xs.take i ++ r :: xs.drop i

/-- `RoutingTable::insert` (src/lib.rs).  `digest` stands for the SHA-512 of
the `sha2` crate (`Peer::id`), `now` for `Instant::now() - epoch`.  The
counter increment is the u8 wrapping `+= 1` of release builds; indexing
`neighbours[dist]` out of bounds is a panic, modelled as `none`. -/
def rtInsert (digest : List Nat → List Nat) (now : Nat) (t : RoutingTable)
    (peer : List Nat) : Option (RoutingTable × InsertResult) :=
  let id := digest peer
  let dist := log2XorDist t.host id
  if dist < t.neighbours.length then
    let neighbours := t.neighbours.set dist ((t.neighbours.getD dist 0 + 1) % 256)
    let newRoute : Route := ⟨dist, now, peer⟩
    match binarySearch t.routes newRoute with
    | Sum.inl i =>
        some ({ t with neighbours := neighbours, routes := t.routes.set i newRoute },
              InsertResult.evict (t.routes.getD i dRoute).peer)
    | Sum.inr i =>
        some ({ t with neighbours := neighbours, routes := vecInsert t.routes i newRoute },
              InsertResult.ok)
  else none

/-- `RoutingTable::last_k` (src/lib.rs): binary-search for the synthetic
successor route `(dist + 1, 0, zero peer)`, step back one index
(`checked_sub`), and check the distance of the found entry.  The `dist + 1`
is u16 arithmetic, hence the `% 65536`. -/
def lastK (t : RoutingTable) (dist : Nat) : Option Nat :=
  if t.neighbours.getD dist 0 = 0 then none
  else
    match (match binarySearch t.routes ⟨(dist + 1) % 65536, 0, List.replicate 32 0⟩ with
          | Sum.inl i => i
          | Sum.inr i => i) with
    | 0 => none
    | last + 1 =>
      if (t.routes.getD last dRoute).dist ≠ dist then none else some last

/-- Number of routes at a given distance. -/
def countDist (routes : List Route) (d : Nat) : Nat :=
  routes.countP fun r => decide (r.dist = d)

/-- The occupancy invariant of the spec: the counter at every distance `d`
equals the number of routes whose distance is `d`. -/
def occInv (t : RoutingTable) : Prop :=
  ∀ d, t.neighbours.getD d 0 = countDist t.routes d

/-- A concrete stand-in digest (used only to instantiate the abstract
`digest` parameter at closed inputs): maps everything to 64 zero bytes. -/
def digestZ : List Nat → List Nat := fun _ => List.replicate 64 0

/-- `FilterResult` (src/block.rs). -/
inductive FilterResult where
  | more
  | last
  | duplicate
  | irrelevant
deriving DecidableEq

/-- Fuelled doubling loop computing `u32::next_power_of_two` with release
(wrapping) semantics: starting from 1, double until the accumulator reaches
`n`; 32 doublings exhaust the u32 range, whereupon the result wraps. -/
def nextPow2Go (n : Nat) : Nat → Nat → Nat
  | 0, acc => acc % 2 ^ 32
  | fuel + 1, acc => if n ≤ acc then acc else nextPow2Go n fuel (2 * acc)

/-- `u32::next_power_of_two` with release (wrapping) semantics. -/
def nextPow2u32 (n : Nat) : Nat := nextPow2Go n 32 1

/-- `u32::to_be_bytes`. -/
def toBe4 (m : Nat) : List Nat :=
  [m / 2 ^ 24 % 256, m / 2 ^ 16 % 256, m / 2 ^ 8 % 256, m % 256]

/-- `usize::is_power_of_two`, as Rust computes it: non-zero and no bit in
common with its predecessor. -/
def isPow2u (n : Nat) : Bool := n != 0 && (n &&& (n - 1)) == 0

/-- `HelloBlock::setup_result_filter` (src/block.rs): round the requested
element count up to a power of two `e` (u32, wrapping on overflow), allocate
`e * 16 / 4` zero bytes for the bloom filter (u32 multiplication, wrapping),
and prefix the 4 mutator bytes. -/
def setupResultFilter (filterSize mutator : Nat) : List Nat :=
  toBe4 mutator ++ List.replicate (nextPow2u32 filterSize * 16 % 2 ^ 32 / 4) 0

/-- `HelloBlock::filter_result` (src/block.rs): split off the 4 mutator
bytes, view the remainder as a bloom filter (power-of-two length required),
and test the XOR of the two digests.  `addrs` is the raw trailing address
byte section of the block; `digest` stands for SHA-512. -/
def filterResult (digest : List Nat → List Nat) (addrs : List Nat)
    (rf : List Nat) : FilterResult :=
  if rf.length < 4 then FilterResult.irrelevant
  else if isPow2u (rf.drop 4).length then
    if bfTestInner (rf.drop 4) ((rf.drop 4).length - 1)
        (xorBytes (digest (rf.take 4)) (digest addrs)) then FilterResult.duplicate
    else FilterResult.more
  else FilterResult.irrelevant

/-- Parsed HELLO block (src/block.rs): header fields plus the raw trailing
address bytes. -/
structure HelloBlock where
  peerPublicKey : List Nat
  signature : List Nat
  expiration : List Nat
  addrs : List Nat
deriving DecidableEq

/-- The reconstructed `HelloBlockSignaturePayload` (src/block.rs):
`size = 80` and `purpose = 7` as big-endian u32, the expiration bytes, and
the SHA-512 of the trailing address bytes. -/
def helloSigPayload (digest : List Nat → List Nat)
    (expiration addrsBytes : List Nat) : List Nat :=
  [0, 0, 0, 80] ++ [0, 0, 0, 7] ++ expiration ++ digest addrsBytes

/-- `HelloBlock::parse` (src/block.rs): take the 104-byte header prefix
(32-byte public key, 64-byte signature, 8-byte expiration), verify the
Ed25519 signature over the reconstructed payload, require the trailing bytes
to be valid UTF-8.  `digest`, `pkValid`, `verify`, `utf8Valid` abstract the
external `sha2`, `ed25519-dalek` and `std::str` functions. -/
def helloBlockParse (digest : List Nat → List Nat) (pkValid : List Nat → Bool)
    (verify : List Nat → List Nat → List Nat → Bool) (utf8Valid : List Nat → Bool)
    (b : List Nat) : Option HelloBlock :=
  if b.length < 104 then none
  else if pkValid (b.take 32) then
    if verify (b.take 32) (helloSigPayload digest ((b.drop 96).take 8) (b.drop 104))
        ((b.drop 32).take 64) then
      if utf8Valid (b.drop 104) then
        some ⟨b.take 32, (b.drop 32).take 64, (b.drop 96).take 8, b.drop 104⟩
      else none
    else none
  else none

/-- `HelloBlock::validate_block_store_request` (src/block.rs): re-parse the
public key, rebuild the signature payload from the header's expiration and
the digest of the address bytes, and verify the header's signature. -/
def validateBlockStoreRequest (digest : List Nat → List Nat)
    (pkValid : List Nat → Bool)
    (verify : List Nat → List Nat → List Nat → Bool) (blk : HelloBlock) : Bool :=
  pkValid blk.peerPublicKey &&
    verify blk.peerPublicKey
      (helloSigPayload digest blk.expiration blk.addrs) blk.signature

/-- `Addrs::next` (src/block.rs), i.e. `str::split_once('\0')` on the byte
sequence: the segment before the first NUL byte and the remainder after it,
or nothing when no NUL occurs. -/
def addrsNext : List Nat → Option (List Nat × List Nat)
  | [] => none
  | c :: s =>
    if c = 0 then some ([], s)
    else (addrsNext s).map fun p => (c :: p.1, p.2)

/-- Fuelled iteration of `addrsNext`; each step consumes at least the NUL
byte, so `s.length` fuel always suffices. -/
def addrsAllGo : Nat → List Nat → List (List Nat)
  | 0, _ => []
  | fuel + 1, s =>
    match addrsNext s with
    | none => []
    | some (a, rest) => a :: addrsAllGo fuel rest

/-- All addresses the `Addrs` iterator ever yields for a given section. -/
def addrsAll (s : List Nat) : List (List Nat) := addrsAllGo s.length s

/-- Outcome of parsing: a value, a recoverable `None`, or a process abort
(Rust `assert!`/`panic`). -/
inductive ParseOutcome (α : Type) where
  | ok (val : α)
  | fail
  | abort
deriving DecidableEq

/-- Big-endian u16 read at offset `i` of a byte buffer. -/
def be16 (b : List Nat) (i : Nat) : Nat := b.getD i 0 * 256 + b.getD (i + 1) 0

/-- Parsed `PutMessage` (src/message.rs). -/
structure PutMessage where
  messageSize : Nat
  blockType : Nat
  version : Nat
  flags : Nat
  hopCount : Nat
  replicationLevel : Nat
  pathLen : Nat
  expiration : List Nat
  peerBloomFilter : List Nat
  blockKey : List Nat
  truncatedOrigin : Option (List Nat)
  putPath : List Nat
  lastHopSignature : Option (List Nat)
  block : List Nat
deriving DecidableEq

/-- `PutMessage::parse` (src/message.rs).  The 216-byte `PutMessageHeader`
prefix is followed by: the body sliced to `message_size`; an optional
32-byte truncated origin (flag bit 3); exactly `path_len` path bytes; an
optional 64-byte signature (flag bit 1); the remaining block payload.  The
source asserts `message_type == 146` with `assert_eq!`, which aborts the
process instead of returning `None` — modelled by `ParseOutcome.abort`. -/
def putMessageParse (b : List Nat) : ParseOutcome PutMessage :=
  if b.length < 216 then ParseOutcome.fail
  else
    let messageSize := be16 b 0
    let messageType := be16 b 2
    if messageType ≠ 146 then ParseOutcome.abort
    else if messageSize < 216 || b.length < messageSize then ParseOutcome.fail
    else
      let flags := b.getD 9 0
      let body := (b.take messageSize).drop 216
      let pathLen := be16 b 14
      let tstep : Option (Option (List Nat) × List Nat) :=
        if (flags >>> 3) &&& 1 = 1 then
          if body.length < 32 then none else some (some (body.take 32), body.drop 32)
        else some (none, body)
      match tstep with
      | none => ParseOutcome.fail
      | some (trunc, b1) =>
        if b1.length < pathLen then ParseOutcome.fail
        else
          let path := b1.take pathLen
          let b2 := b1.drop pathLen
          let sstep : Option (Option (List Nat) × List Nat) :=
            if (flags >>> 1) &&& 1 = 1 then
              if b2.length < 64 then none else some (some (b2.take 64), b2.drop 64)
            else some (none, b2)
          match sstep with
          | none => ParseOutcome.fail
          | some (sig, b3) =>
            ParseOutcome.ok
              { messageSize := messageSize
                blockType := b.getD 4 0 * 2 ^ 24 + b.getD 5 0 * 2 ^ 16 + b.getD 6 0 * 2 ^ 8 + b.getD 7 0
                version := b.getD 8 0
                flags := flags
                hopCount := be16 b 10
                replicationLevel := be16 b 12
                pathLen := pathLen
                expiration := (b.drop 16).take 8
                peerBloomFilter := (b.drop 24).take 128
                blockKey := (b.drop 152).take 64
                truncatedOrigin := trunc
                putPath := path
                lastHopSignature := sig
                block := b3 }

/-- Concrete routing table for the C1 counterexample: one route at distance
0 with `created = 5`, counter 1 — the occupancy invariant holds. -/
def rtC1 : RoutingTable :=
  ⟨List.replicate 64 0, [1], [⟨0, 5, List.replicate 32 1⟩]⟩

/-- The table produced by re-inserting the identical route into `rtC1`: the
route list is unchanged but the counter became 2. -/
def rtC1x : RoutingTable :=
  ⟨List.replicate 64 0, [2], [⟨0, 5, List.replicate 32 1⟩]⟩

/-- Concrete routing table for the C8 wrap: the counter at distance 0 holds
the u8 maximum 255. -/
def rtC8 : RoutingTable := ⟨List.replicate 64 0, [255], []⟩

/-- Concrete routing table used to witness the last_k specification: two
routes at distance 1 with distinct `created` values, counters `[0, 2]`. -/
def rtC4 : RoutingTable :=
  ⟨List.replicate 64 0, [0, 2],
    [⟨1, 3, List.replicate 32 2⟩, ⟨1, 9, List.replicate 32 1⟩]⟩

/-! ### Basic list helpers -/

theorem getD_set_self_nat (l : List Nat) (i v : Nat) (h : i < l.length) :
    (l.set i v).getD i 0 = v := by
  simp [List.getD_eq_getElem?_getD, List.getElem?_set_self h]

theorem getD_set_ne_nat (l : List Nat) (i j v : Nat) (h : i ≠ j) :
    (l.set i v).getD j 0 = l.getD j 0 := by
  simp [List.getD_eq_getElem?_getD, List.getElem?_set_ne h]

theorem getD_replicate_zero (n i : Nat) : (List.replicate n (0 : Nat)).getD i 0 = 0 := by
  simp [List.getD_eq_getElem?_getD]

/-! ### log2_xor_dist -/

theorem clz8_pow (r : Nat) (hr : r < 8) : clz8 (2 ^ (7 - r)) = r := by
  interval_cases r <;> rfl

theorem log2XorDistAux_comm : ∀ a b : List Nat, log2XorDistAux a b = log2XorDistAux b a
  | [], [] => rfl
  | [], _ :: _ => rfl
  | _ :: _, [] => rfl
  | x :: xs, y :: ys => by
    simp only [log2XorDistAux, Nat.xor_comm x y, log2XorDistAux_comm xs ys]

theorem log2XorDistAux_self : ∀ a : List Nat, log2XorDistAux a a = 8 * a.length
  | [] => rfl
  | x :: xs => by
    simp only [log2XorDistAux, Nat.xor_self]
    norm_num [clz8, log2XorDistAux_self xs, List.length_cons]
    ring

theorem log2XorDistAux_single :
    ∀ (i : Nat) (a b : List Nat) (r : Nat), i < a.length → b.length = a.length →
      r < 8 →
      (∀ j, a.getD j 0 ^^^ b.getD j 0 = if j = i then 2 ^ (7 - r) else 0) →
      log2XorDistAux a b = 8 * i + r := by
  intro i
  induction i with
  | zero =>
    intro a b r hi hlen hr hxor
    match a, b with
    | [], _ => simp at hi
    | x :: xs, [] => simp at hlen
    | x :: xs, y :: ys =>
      have h0 : x ^^^ y = 2 ^ (7 - r) := by simpa using hxor 0
      simp only [log2XorDistAux, h0, clz8_pow r hr, if_pos hr]
      omega
  | succ i ih =>
    intro a b r hi hlen hr hxor
    match a, b with
    | [], _ => simp at hi
    | x :: xs, [] => simp at hlen
    | x :: xs, y :: ys =>
      have h0 : x ^^^ y = 0 := by
        have h1 := hxor 0
        rw [if_neg (by omega)] at h1
        simpa using h1
      have hrec : log2XorDistAux xs ys = 8 * i + r := by
        apply ih xs ys r (by simpa using hi) (by simpa using hlen) hr
        intro j
        have hj := hxor (j + 1)
        simp only [List.getD_cons_succ] at hj
        rw [hj]
        by_cases h : j = i
        · simp [h]
        · rw [if_neg (by omega), if_neg h]
      have hc : clz8 0 = 8 := rfl
      simp only [log2XorDistAux, h0, hc]
      rw [if_neg (by omega), hrec]
      omega

/-- C5: `log2_xor_dist` satisfies `dist(a, a) = 0`, symmetry, and for
identifiers differing only in bit `511 - n` (0-indexed from the most
significant bit, i.e. only byte `i` differs, with XOR `2 ^ (7 - r)` where
`8 * i + r = 511 - n`) the distance is `n + 1`; in particular the spec's
examples evaluate to 469 and 403. -/
theorem log2XorDist_spec :
    (∀ a : List Nat, a.length = 64 → log2XorDist a a = 0) ∧
    (∀ a b : List Nat, log2XorDist a b = log2XorDist b a) ∧
    (∀ (a b : List Nat) (i r n : Nat), a.length = 64 → b.length = 64 →
      i < 64 → r < 8 → n < 512 → 8 * i + r = 511 - n →
      (∀ j, a.getD j 0 ^^^ b.getD j 0 = if j = i then 2 ^ (7 - r) else 0) →
      log2XorDist a b = n + 1) ∧
    log2XorDist (List.replicate 64 0) ((List.replicate 64 0).set 5 16) = 469 ∧
    log2XorDist (List.replicate 64 0) ((List.replicate 64 0).set 13 4) = 403 := by
  refine ⟨?_, ?_, ?_, by decide, by decide⟩
  · intro a ha
    simp [log2XorDist, log2XorDistAux_self, ha]
  · intro a b
    simp [log2XorDist, log2XorDistAux_comm a b]
  · intro a b i r n ha hb hi hr hn heq hxor
    have : log2XorDistAux a b = 8 * i + r :=
      log2XorDistAux_single i a b r (by omega) (by omega) hr hxor
    simp only [log2XorDist, this]
    omega

/-- C5 witness: the general single-bit law applied at the concrete pair of
identifiers from the spec's first example gives distance 469. -/
theorem log2XorDist_spec_witness :
    log2XorDist (List.replicate 64 0) ((List.replicate 64 0).set 5 16) = 468 + 1 :=
  log2XorDist_spec.2.2.1 (List.replicate 64 0) ((List.replicate 64 0).set 5 16)
    5 3 468 (by decide) (by decide) (by decide) (by decide) (by decide) (by decide)
    (fun j => by
      by_cases h : j = 5
      · subst h
        rw [getD_replicate_zero, getD_set_self_nat _ _ _ (by decide)]
        decide
      · rw [getD_replicate_zero, getD_set_ne_nat _ _ _ _ (Ne.symm h), getD_replicate_zero,
          if_neg h]
        decide)

/-! ### Bloom filter -/

theorem insertStep_length (mask : Nat) (bs : List Nat) (k : Nat) :
    (insertStep mask bs k).length = bs.length := by
  simp [insertStep]

theorem foldl_insertStep_length (mask : Nat) :
    ∀ (ws bs : List Nat), (ws.foldl (insertStep mask) bs).length = bs.length
  | [], _ => rfl
  | w :: ws, bs => by
    rw [List.foldl_cons, foldl_insertStep_length mask ws, insertStep_length]

theorem bfInsertInner_length (bytes : List Nat) (mask : Nat) (key : List Nat) :
    (bfInsertInner bytes mask key).length = bytes.length :=
  foldl_insertStep_length mask (keyWords key) bytes

theorem insertStep_bits (mask : Nat) (bs : List Nat) (k i b : Nat)
    (h : (bs.getD i 0).testBit b = true) :
    ((insertStep mask bs k).getD i 0).testBit b = true := by
  unfold insertStep
  by_cases hi : i = (k >>> 3) &&& mask
  · subst hi
    by_cases hlen : (k >>> 3) &&& mask < bs.length
    · rw [getD_set_self_nat _ _ _ hlen, Nat.testBit_or, h]
      rfl
    · rw [List.set_eq_of_length_le (by omega)]
      exact h
  · rw [getD_set_ne_nat _ _ _ _ (Ne.symm hi)]
    exact h

theorem foldl_insertStep_bits (mask : Nat) :
    ∀ (ws bs : List Nat) (i b : Nat), (bs.getD i 0).testBit b = true →
      ((ws.foldl (insertStep mask) bs).getD i 0).testBit b = true
  | [], _, _, _, h => h
  | w :: ws, bs, i, b, h =>
    foldl_insertStep_bits mask ws _ i b (insertStep_bits mask bs w i b h)

theorem insertStep_sets_own (mask : Nat) (bs : List Nat) (k : Nat)
    (hm : mask < bs.length) :
    ((insertStep mask bs k).getD ((k >>> 3) &&& mask) 0).testBit (k &&& 7) = true := by
  have hlt : (k >>> 3) &&& mask < bs.length := lt_of_le_of_lt Nat.and_le_right hm
  unfold insertStep
  rw [getD_set_self_nat _ _ _ hlt]
  have hpow : (1 <<< (k &&& 7)) = 2 ^ (k &&& 7) := by rw [Nat.shiftLeft_eq, one_mul]
  simp [Nat.testBit_or, hpow, Nat.testBit_two_pow_self]

theorem foldl_insertStep_sets (mask : Nat) :
    ∀ (ws bs : List Nat), mask < bs.length → ∀ w ∈ ws,
      ((ws.foldl (insertStep mask) bs).getD ((w >>> 3) &&& mask) 0).testBit (w &&& 7) = true := by
  intro ws
  induction ws with
  | nil => intro bs hm w hw; simp at hw
  | cons w0 ws ih =>
    intro bs hm w hw
    rw [List.foldl_cons]
    rcases List.mem_cons.mp hw with h | h
    · subst h
      exact foldl_insertStep_bits mask ws _ _ _ (insertStep_sets_own mask bs w hm)
    · exact ih (insertStep mask bs w0) (by rw [insertStep_length]; exact hm) w h

theorem bfTest_true_iff (bytes : List Nat) (mask : Nat) (key : List Nat) :
    bfTestInner bytes mask key = true ↔
      ∀ w ∈ keyWords key,
        (bytes.getD ((w >>> 3) &&& mask) 0).testBit (w &&& 7) = true := by
  unfold bfTestInner
  rw [List.all_eq_true]
  apply forall_congr'
  intro w
  apply imp_congr_right
  intro _
  rw [Nat.and_one_is_mod, Nat.shiftRight_eq_div_pow, Nat.testBit_to_div_mod]
  simp

theorem keyWords_ne_nil (key : List Nat) (h : key.length = 64) :
    keyWords key ≠ [] := by
  rcases key with _ | ⟨b0, _ | ⟨b1, _ | ⟨b2, _ | ⟨b3, rest⟩⟩⟩⟩ <;>
    simp_all [keyWords]

/-- C6: the bloom filter has no false negatives.  On an all-zero filter every
64-byte key tests false; after inserting a key, that key tests true; and
inserting any further key never un-sets a key that tested true.  The
hypothesis `mask < length` is the assertion `bf_insert_inner`/`bf_test_inner`
demand of their callers. -/
theorem bloomFilter_no_false_negatives :
    (∀ (L mask : Nat) (key : List Nat), mask < L → key.length = 64 →
      bfTestInner (List.replicate L 0) mask key = false) ∧
    (∀ (bytes : List Nat) (mask : Nat) (key : List Nat), mask < bytes.length →
      bfTestInner (bfInsertInner bytes mask key) mask key = true) ∧
    (∀ (bytes : List Nat) (mask : Nat) (k1 k2 : List Nat), mask < bytes.length →
      bfTestInner bytes mask k1 = true →
      bfTestInner (bfInsertInner bytes mask k2) mask k1 = true) := by
  refine ⟨?_, ?_, ?_⟩
  · intro L mask key hm hk
    cases h : bfTestInner (List.replicate L 0) mask key with
    | false => rfl
    | true =>
      exfalso
      obtain ⟨w, hw⟩ := List.exists_mem_of_ne_nil _ (keyWords_ne_nil key hk)
      have hbit := (bfTest_true_iff _ _ _).mp h w hw
      rw [getD_replicate_zero] at hbit
      simp [Nat.zero_testBit] at hbit
  · intro bytes mask key hm
    rw [bfTest_true_iff]
    intro w hw
    exact foldl_insertStep_sets mask (keyWords key) bytes hm w hw
  · intro bytes mask k1 k2 hm ht
    rw [bfTest_true_iff] at ht ⊢
    intro w hw
    exact foldl_insertStep_bits mask (keyWords k2) bytes _ _ (ht w hw)

/-- C6 witness: the three parts of the no-false-negative law evaluated at
concrete filters and the all-zero 64-byte key. -/
theorem bloomFilter_no_false_negatives_witness :
    bfTestInner (List.replicate 1 0) 0 (List.replicate 64 0) = false ∧
    bfTestInner (bfInsertInner [0] 0 (List.replicate 64 0)) 0 (List.replicate 64 0) = true ∧
    bfTestInner (bfInsertInner [255] 0 (List.replicate 64 0)) 0 (List.replicate 64 0) = true :=
  ⟨bloomFilter_no_false_negatives.1 1 0 (List.replicate 64 0) (by decide) (by decide),
   bloomFilter_no_false_negatives.2.1 [0] 0 (List.replicate 64 0) (by decide),
   bloomFilter_no_false_negatives.2.2 [255] 0 (List.replicate 64 0) (List.replicate 64 0)
     (by decide) (by decide)⟩

/-! ### The Route order -/

theorem listCmp_eq_iff : ∀ x y : List Nat, listCmp x y = Ordering.eq ↔ x = y
  | [], [] => by simp [listCmp]
  | [], _ :: _ => by simp [listCmp]
  | _ :: _, [] => by simp [listCmp]
  | x :: xs, y :: ys => by
    simp only [listCmp]
    cases h : compare x y with
    | lt =>
      have hxy := Nat.compare_eq_lt.mp h
      simp only [List.cons.injEq]
      constructor
      · intro hc; simp at hc
      · intro hc; exact absurd hc.1 (by omega)
    | gt =>
      have hxy := Nat.compare_eq_gt.mp h
      simp only [List.cons.injEq]
      constructor
      · intro hc; simp at hc
      · intro hc; exact absurd hc.1 (by omega)
    | eq =>
      have hxy := Nat.compare_eq_eq.mp h
      subst hxy
      simp [listCmp_eq_iff xs ys]

theorem listCmp_lt_trans : ∀ x y z : List Nat, listCmp x y = Ordering.lt →
    listCmp y z = Ordering.lt → listCmp x z = Ordering.lt
  | [], [], _, h1, _ => by simp [listCmp] at h1
  | [], _ :: _, [], _, h2 => by simp [listCmp] at h2
  | [], _ :: _, _ :: _, _, _ => by simp [listCmp]
  | _ :: _, [], _, h1, _ => by simp [listCmp] at h1
  | _ :: _, _ :: _, [], _, h2 => by simp [listCmp] at h2
  | x :: xs, y :: ys, z :: zs, h1, h2 => by
    simp only [listCmp] at h1 h2 ⊢
    cases hxy : compare x y with
    | gt => rw [hxy] at h1; simp at h1
    | lt =>
      have hx := Nat.compare_eq_lt.mp hxy
      cases hyz : compare y z with
      | gt => rw [hyz] at h2; simp at h2
      | lt =>
        have hy := Nat.compare_eq_lt.mp hyz
        rw [Nat.compare_eq_lt.mpr (by omega)]
      | eq =>
        have hy := Nat.compare_eq_eq.mp hyz
        rw [Nat.compare_eq_lt.mpr (by omega)]
    | eq =>
      have hx := Nat.compare_eq_eq.mp hxy
      rw [hxy] at h1
      cases hyz : compare y z with
      | gt => rw [hyz] at h2; simp at h2
      | lt =>
        have hy := Nat.compare_eq_lt.mp hyz
        rw [Nat.compare_eq_lt.mpr (by omega)]
      | eq =>
        have hy := Nat.compare_eq_eq.mp hyz
        rw [hyz] at h2
        rw [Nat.compare_eq_eq.mpr (by omega)]
        exact listCmp_lt_trans xs ys zs h1 h2

theorem listCmp_zero_not_lt : ∀ (x : List Nat) (n : Nat), x.length = n →
    listCmp x (List.replicate n 0) ≠ Ordering.lt
  | [], n, h => by
    subst h
    simp [listCmp, List.replicate]
  | a :: x, n, h => by
    match n, h with
    | m + 1, h =>
      rw [List.replicate_succ]
      simp only [listCmp]
      cases hc : compare a 0 with
      | lt => exact absurd (Nat.compare_eq_lt.mp hc) (by omega)
      | gt => simp
      | eq => exact listCmp_zero_not_lt x m (by simpa using h)

theorem routeCmp_eq_iff (r s : Route) : routeCmp r s = Ordering.eq ↔ r = s := by
  obtain ⟨rd, rc, rp⟩ := r
  obtain ⟨sd, sc, sp⟩ := s
  simp only [routeCmp, Route.mk.injEq]
  cases h1 : compare rd sd with
  | lt =>
    have := Nat.compare_eq_lt.mp h1
    constructor
    · intro hc; simp at hc
    · intro hc; exact absurd hc.1 (by omega)
  | gt =>
    have := Nat.compare_eq_gt.mp h1
    constructor
    · intro hc; simp at hc
    · intro hc; exact absurd hc.1 (by omega)
  | eq =>
    have h1x := Nat.compare_eq_eq.mp h1
    subst h1x
    cases h2 : compare rc sc with
    | lt =>
      have := Nat.compare_eq_lt.mp h2
      constructor
      · intro hc; simp at hc
      · intro hc; exact absurd hc.2.1 (by omega)
    | gt =>
      have := Nat.compare_eq_gt.mp h2
      constructor
      · intro hc; simp at hc
      · intro hc; exact absurd hc.2.1 (by omega)
    | eq =>
      have h2x := Nat.compare_eq_eq.mp h2
      subst h2x
      simp [listCmp_eq_iff]

theorem routeCmp_lt_iff (r s : Route) : routeCmp r s = Ordering.lt ↔
    r.dist < s.dist ∨ (r.dist = s.dist ∧ (r.created < s.created ∨
      (r.created = s.created ∧ listCmp r.peer s.peer = Ordering.lt))) := by
  obtain ⟨rd, rc, rp⟩ := r
  obtain ⟨sd, sc, sp⟩ := s
  simp only [routeCmp]
  cases h1 : compare rd sd with
  | lt =>
    have := Nat.compare_eq_lt.mp h1
    constructor
    · intro _; exact Or.inl this
    · intro _; rfl
  | gt =>
    have := Nat.compare_eq_gt.mp h1
    constructor
    · intro hc; simp at hc
    · intro hc
      rcases hc with h | ⟨h, -⟩ <;> omega
  | eq =>
    have h1x := Nat.compare_eq_eq.mp h1
    subst h1x
    cases h2 : compare rc sc with
    | lt =>
      have := Nat.compare_eq_lt.mp h2
      constructor
      · intro _; exact Or.inr ⟨rfl, Or.inl this⟩
      · intro _; rfl
    | gt =>
      have := Nat.compare_eq_gt.mp h2
      constructor
      · intro hc; simp at hc
      · intro hc
        rcases hc with h | ⟨-, h | ⟨h, -⟩⟩ <;> omega
    | eq =>
      have h2x := Nat.compare_eq_eq.mp h2
      subst h2x
      constructor
      · intro hc; exact Or.inr ⟨rfl, Or.inr ⟨rfl, hc⟩⟩
      · intro hc
        rcases hc with h | ⟨-, h | ⟨-, h⟩⟩
        · omega
        · omega
        · exact h

theorem routeLt_trans {a b c : Route} (h1 : routeLt a b) (h2 : routeLt b c) :
    routeLt a c := by
  unfold routeLt at h1 h2 ⊢
  rw [routeCmp_lt_iff] at h1 h2 ⊢
  rcases h1 with h1 | ⟨h1e, h1'⟩
  · rcases h2 with h2 | ⟨h2e, -⟩
    · exact Or.inl (by omega)
    · exact Or.inl (by omega)
  · rcases h2 with h2 | ⟨h2e, h2'⟩
    · exact Or.inl (by omega)
    · refine Or.inr ⟨by omega, ?_⟩
      rcases h1' with h1c | ⟨h1c, h1p⟩
      · rcases h2' with h2c | ⟨h2c, -⟩
        · exact Or.inl (by omega)
        · exact Or.inl (by omega)
      · rcases h2' with h2c | ⟨h2c, h2p⟩
        · exact Or.inl (by omega)
        · exact Or.inr ⟨by omega, listCmp_lt_trans _ _ _ h1p h2p⟩

theorem routeLt_dist_le {a b : Route} (h : routeLt a b) : a.dist ≤ b.dist := by
  unfold routeLt at h
  rw [routeCmp_lt_iff] at h
  rcases h with h | ⟨h, -⟩ <;> omega

theorem routeLt_created_le {a b : Route} (h : routeLt a b) (he : a.dist = b.dist) :
    a.created ≤ b.created := by
  unfold routeLt at h
  rw [routeCmp_lt_iff] at h
  rcases h with h | ⟨-, h | ⟨h, -⟩⟩ <;> omega

/-! ### Binary search -/

theorem binarySearch_inl {xs : List Route} {t : Route} {i : Nat}
    (h : binarySearch xs t = Sum.inl i) :
    xs.get? i = some t ∧
      i = xs.countP fun r => decide (routeCmp r t = Ordering.lt) := by
  simp only [binarySearch] at h
  cases hg : xs.get? (xs.countP fun r => decide (routeCmp r t = Ordering.lt)) with
  | none =>
    rw [hg] at h
    exact Sum.noConfusion h
  | some r =>
    rw [hg] at h
    have h2 : (if routeCmp r t = Ordering.eq
        then Sum.inl (xs.countP fun r => decide (routeCmp r t = Ordering.lt))
        else Sum.inr (xs.countP fun r => decide (routeCmp r t = Ordering.lt)))
        = Sum.inl i := h
    by_cases he : routeCmp r t = Ordering.eq
    · rw [if_pos he] at h2
      injection h2 with h2
      subst h2
      exact ⟨by rw [hg, (routeCmp_eq_iff r t).mp he], rfl⟩
    · rw [if_neg he] at h2
      exact Sum.noConfusion h2

theorem binarySearch_inr {xs : List Route} {t : Route} {i : Nat}
    (h : binarySearch xs t = Sum.inr i) :
    i = xs.countP fun r => decide (routeCmp r t = Ordering.lt) := by
  simp only [binarySearch] at h
  cases hg : xs.get? (xs.countP fun r => decide (routeCmp r t = Ordering.lt)) with
  | none =>
    rw [hg] at h
    have h2 : (Sum.inr (xs.countP fun r => decide (routeCmp r t = Ordering.lt)) :
        Sum Nat Nat) = Sum.inr i := h
    injection h2 with h2
    exact h2.symm
  | some r =>
    rw [hg] at h
    have h2 : (if routeCmp r t = Ordering.eq
        then Sum.inl (xs.countP fun r => decide (routeCmp r t = Ordering.lt))
        else Sum.inr (xs.countP fun r => decide (routeCmp r t = Ordering.lt)))
        = Sum.inr i := h
    by_cases he : routeCmp r t = Ordering.eq
    · rw [if_pos he] at h2
      exact Sum.noConfusion h2
    · rw [if_neg he] at h2
      injection h2 with h2
      exact h2.symm

theorem binarySearch_collapse (xs : List Route) (t : Route) :
    (match binarySearch xs t with | Sum.inl i => i | Sum.inr i => i) =
      xs.countP fun r => decide (routeCmp r t = Ordering.lt) := by
  cases h : binarySearch xs t with
  | inl i => exact (binarySearch_inl h).2
  | inr i => exact binarySearch_inr h

/-! ### Sorted prefix characterisation of countP -/

theorem sorted_countP_prefix (p : Route → Bool) :
    ∀ xs : List Route, List.Pairwise routeLt xs →
      (∀ a b, a ∈ xs → b ∈ xs → routeLt a b → p b = true → p a = true) →
      ∀ j, j < xs.length → (p (xs.getD j dRoute) = true ↔ j < xs.countP p)
  | [], _, _, j, hj => by simp at hj
  | x :: xs, hs, hdc, j, hj => by
    have hx : ∀ y ∈ xs, routeLt x y := (List.pairwise_cons.mp hs).1
    have hs' : List.Pairwise routeLt xs := (List.pairwise_cons.mp hs).2
    cases hp : p x with
    | true =>
      have hcc : (x :: xs).countP p = xs.countP p + 1 := by
        simp [List.countP_cons, hp]
      rw [hcc]
      cases j with
      | zero => simp [hp]
      | succ j =>
        rw [List.getD_cons_succ]
        have ih := sorted_countP_prefix p xs hs'
          (fun a b ha hb => hdc a b (List.mem_cons_of_mem _ ha) (List.mem_cons_of_mem _ hb))
          j (by simpa using hj)
        rw [ih]
        omega
    | false =>
      have hall : ∀ y ∈ xs, p y = false := by
        intro y hy
        cases hpy : p y with
        | false => rfl
        | true =>
          exact absurd
            (hdc x y (List.mem_cons_self x xs) (List.mem_cons_of_mem _ hy) (hx y hy) hpy)
            (by simp [hp])
      have hcz : (x :: xs).countP p = 0 := by
        rw [List.countP_eq_zero]
        intro a ha
        rcases List.mem_cons.mp ha with h | h
        · subst h; simp [hp]
        · simp [hall a h]
      rw [hcz]
      cases j with
      | zero => simp [hp]
      | succ j =>
        rw [List.getD_cons_succ]
        have hj' : j < xs.length := by simpa using hj
        rw [List.getD_eq_getElem _ _ hj']
        simp [hall _ (List.getElem_mem hj')]

/-! ### RoutingTable::insert and the occupancy counters -/

theorem set_get?_self : ∀ (xs : List Route) (i : Nat) (a : Route),
    xs.get? i = some a → xs.set i a = xs
  | [], _, _, h => by simp at h
  | x :: xs, 0, a, h => by
    simp only [List.get?] at h
    injection h with h
    subst h
    rfl
  | x :: xs, i + 1, a, h => by
    simp only [List.get?] at h
    show x :: xs.set i a = x :: xs
    rw [set_get?_self xs i a h]

theorem countDist_vecInsert (xs : List Route) (i : Nat) (r : Route) (d : Nat) :
    countDist (vecInsert xs i r) d =
      countDist xs d + if r.dist = d then 1 else 0 := by
  unfold countDist vecInsert
  rw [List.countP_append, List.countP_cons]
  conv_rhs => rw [← List.take_append_drop i xs, List.countP_append]
  by_cases hd : r.dist = d <;> simp [hd] <;> omega

theorem rtInsert_inl (digest : List Nat → List Nat) (now : Nat) (t : RoutingTable)
    (peer : List Nat) (i : Nat)
    (hlen : log2XorDist t.host (digest peer) < t.neighbours.length)
    (hbs : binarySearch t.routes ⟨log2XorDist t.host (digest peer), now, peer⟩ = Sum.inl i) :
    rtInsert digest now t peer = some
      ({ t with
          neighbours := t.neighbours.set (log2XorDist t.host (digest peer))
            ((t.neighbours.getD (log2XorDist t.host (digest peer)) 0 + 1) % 256),
          routes := t.routes.set i ⟨log2XorDist t.host (digest peer), now, peer⟩ },
        InsertResult.evict (t.routes.getD i dRoute).peer) := by
  simp [rtInsert, if_pos hlen, hbs]

theorem rtInsert_inr (digest : List Nat → List Nat) (now : Nat) (t : RoutingTable)
    (peer : List Nat) (i : Nat)
    (hlen : log2XorDist t.host (digest peer) < t.neighbours.length)
    (hbs : binarySearch t.routes ⟨log2XorDist t.host (digest peer), now, peer⟩ = Sum.inr i) :
    rtInsert digest now t peer = some
      ({ t with
          neighbours := t.neighbours.set (log2XorDist t.host (digest peer))
            ((t.neighbours.getD (log2XorDist t.host (digest peer)) 0 + 1) % 256),
          routes := vecInsert t.routes i ⟨log2XorDist t.host (digest peer), now, peer⟩ },
        InsertResult.ok) := by
  simp [rtInsert, if_pos hlen, hbs]

/-- C1 (amended): on a sorted table satisfying the occupancy invariant whose
counter at the inserted peer's distance is still below the u8 maximum,
`insert` preserves the invariant on the branch that inserts a new route
(`Ok`); on the branch that finds an identical `(dist, created, peer)` triple
and returns the replaced peer, the route list is unchanged while the counter
was still incremented, so the counter at that distance ends up exceeding the
route count by exactly one (all other distances stay consistent). -/
theorem insert_occupancy_amended (digest : List Nat → List Nat) (now : Nat)
    (t : RoutingTable) (peer : List Nat) (dist : Nat)
    (hdist : dist = log2XorDist t.host (digest peer))
    (hs : List.Pairwise routeLt t.routes)
    (hinv : occInv t)
    (hlen : dist < t.neighbours.length)
    (hmax : t.neighbours.getD dist 0 < 255) :
    ∃ t2 res, rtInsert digest now t peer = some (t2, res) ∧
      (res = InsertResult.ok → occInv t2) ∧
      (∀ q, res = InsertResult.evict q →
        t2.neighbours.getD dist 0 = countDist t2.routes dist + 1 ∧
        ∀ d, d ≠ dist → t2.neighbours.getD d 0 = countDist t2.routes d) := by
  subst hdist
  have hmod : (t.neighbours.getD (log2XorDist t.host (digest peer)) 0 + 1) % 256 =
      t.neighbours.getD (log2XorDist t.host (digest peer)) 0 + 1 :=
    Nat.mod_eq_of_lt (by omega)
  cases hbs : binarySearch t.routes ⟨log2XorDist t.host (digest peer), now, peer⟩ with
  | inl i =>
    obtain ⟨hget, -⟩ := binarySearch_inl hbs
    have hroutes : t.routes.set i ⟨log2XorDist t.host (digest peer), now, peer⟩ = t.routes :=
      set_get?_self _ _ _ hget
    refine ⟨_, _, rtInsert_inl digest now t peer i hlen hbs, ?_, ?_⟩
    · intro h
      exact InsertResult.noConfusion h
    · intro q _
      constructor
      · rw [hroutes]
        show (t.neighbours.set (log2XorDist t.host (digest peer)) _).getD
          (log2XorDist t.host (digest peer)) 0 = _
        rw [getD_set_self_nat _ _ _ hlen, hmod, hinv (log2XorDist t.host (digest peer))]
      · intro d hd
        rw [hroutes]
        show (t.neighbours.set (log2XorDist t.host (digest peer)) _).getD d 0 = _
        rw [getD_set_ne_nat _ _ _ _ (Ne.symm hd), hinv d]
  | inr i =>
    refine ⟨_, _, rtInsert_inr digest now t peer i hlen hbs, ?_, ?_⟩
    · intro _
      intro d
      show (t.neighbours.set (log2XorDist t.host (digest peer)) _).getD d 0 =
        countDist (vecInsert t.routes i ⟨log2XorDist t.host (digest peer), now, peer⟩) d
      rw [countDist_vecInsert]
      by_cases hd : d = log2XorDist t.host (digest peer)
      · rw [hd, getD_set_self_nat _ _ _ hlen, hmod,
          hinv (log2XorDist t.host (digest peer)), if_pos rfl]
      · rw [getD_set_ne_nat _ _ _ _ (Ne.symm hd), hinv d, if_neg (fun hc => hd hc.symm)]
        omega
    · intro q hq
      exact InsertResult.noConfusion hq

/-- C1 counterexample: a table holding exactly the route
`(dist 0, created 5, peer 1^32)` with counter 1 satisfies the invariant;
re-inserting the identical triple takes the replace branch, which increments
the counter to 2 while the route list still holds one entry, so the
invariant is broken after `insert` returns. -/
theorem insert_occupancy_counterexample :
    occInv rtC1 ∧
    rtInsert digestZ 5 rtC1 (List.replicate 32 1) =
      some (rtC1x, InsertResult.evict (List.replicate 32 1)) ∧
    ¬ occInv rtC1x := by
  refine ⟨?_, by decide, ?_⟩
  · intro d
    match d with
    | 0 => decide
    | d + 1 =>
      show List.getD [1] (d + 1) 0 = countDist rtC1.routes (d + 1)
      rw [List.getD_cons_succ, List.getD_nil]
      simp [rtC1, countDist, List.countP_cons]
  · intro h
    exact absurd (h 0) (by decide)

/-- C1 witness: the amended occupancy statement applied to the empty table
with one zero counter, inserting a concrete peer at distance 0. -/
theorem insert_occupancy_amended_witness :
    ∃ t2 res,
      rtInsert digestZ 0 ⟨List.replicate 64 0, [0], []⟩ (List.replicate 32 1) =
        some (t2, res) ∧
      (res = InsertResult.ok → occInv t2) ∧
      (∀ q, res = InsertResult.evict q →
        t2.neighbours.getD 0 0 = countDist t2.routes 0 + 1 ∧
        ∀ d, d ≠ 0 → t2.neighbours.getD d 0 = countDist t2.routes d) :=
  insert_occupancy_amended digestZ 0 ⟨List.replicate 64 0, [0], []⟩ (List.replicate 32 1) 0
    (by decide) List.Pairwise.nil (fun d => by cases d <;> rfl) (by decide) (by decide)

/-- C8: the occupancy counter wraps silently.  On a table whose u8 counter
at distance 0 holds the maximum 255, inserting a peer at distance 0 returns
plain success and leaves the counter wrapped to 0 — no capacity-exceeded
condition is surfaced (release-mode wrapping arithmetic; debug builds abort
on the overflow instead of surfacing a capacity error). -/
theorem insert_counter_wrap_bug :
    rtInsert digestZ 0 rtC8 (List.replicate 32 1) =
      some (⟨List.replicate 64 0, [0], [⟨0, 0, List.replicate 32 1⟩]⟩, InsertResult.ok) := by
  decide

/-! ### last_k -/

/-- C4: on a sorted table whose counters match the per-distance counts (and
whose peers are 32-byte keys, with `dist + 1` in u16 range), `last_k`
returns none when the bucket is empty, and otherwise the index of the last
entry of the bucket in sort order — the entry with the largest `created`
among the entries at that distance. -/
theorem lastK_spec (t : RoutingTable) (dist : Nat)
    (hs : List.Pairwise routeLt t.routes)
    (hinv : occInv t)
    (hn : dist < t.neighbours.length)
    (hu : dist < 65535)
    (hp : ∀ r ∈ t.routes, r.peer.length = 32) :
    ((∀ r ∈ t.routes, r.dist ≠ dist) → lastK t dist = none) ∧
    ((∃ r ∈ t.routes, r.dist = dist) →
      ∃ i, lastK t dist = some i ∧ i < t.routes.length ∧
        (t.routes.getD i dRoute).dist = dist ∧
        ∀ j, j < t.routes.length → (t.routes.getD j dRoute).dist = dist →
          j ≤ i ∧ (t.routes.getD j dRoute).created ≤ (t.routes.getD i dRoute).created) := by
  have hcount : t.neighbours.getD dist 0 = countDist t.routes dist := hinv dist
  constructor
  · intro hempty
    have hz : countDist t.routes dist = 0 := by
      rw [countDist, List.countP_eq_zero]
      intro r hr
      simp [hempty r hr]
    unfold lastK
    rw [hcount, hz, if_pos rfl]
  · rintro ⟨r0, hr0m, hr0d⟩
    have hsucc : (dist + 1) % 65536 = dist + 1 := Nat.mod_eq_of_lt (by omega)
    have hpchar : ∀ r ∈ t.routes,
        (decide (routeCmp r (⟨(dist + 1) % 65536, 0, List.replicate 32 0⟩ : Route)
          = Ordering.lt) = true ↔ r.dist ≤ dist) := by
      intro r hr
      rw [decide_eq_true_eq, routeCmp_lt_iff]
      dsimp only
      rw [hsucc]
      constructor
      · rintro (hlt | ⟨heq, hcr | ⟨-, hlp⟩⟩)
        · omega
        · omega
        · exact absurd hlp (listCmp_zero_not_lt r.peer 32 (hp r hr))
      · intro hle
        exact Or.inl (by omega)
    have hdc : ∀ a b, a ∈ t.routes → b ∈ t.routes → routeLt a b →
        decide (routeCmp b (⟨(dist + 1) % 65536, 0, List.replicate 32 0⟩ : Route)
          = Ordering.lt) = true →
        decide (routeCmp a (⟨(dist + 1) % 65536, 0, List.replicate 32 0⟩ : Route)
          = Ordering.lt) = true := by
      intro a b ha hb hab hpb
      rw [hpchar a ha]
      have hble := (hpchar b hb).mp hpb
      have hd := routeLt_dist_le hab
      omega
    have hchar := sorted_countP_prefix
      (fun r => decide (routeCmp r (⟨(dist + 1) % 65536, 0, List.replicate 32 0⟩ : Route)
        = Ordering.lt)) t.routes hs hdc
    have hmem : ∀ j, j < t.routes.length → t.routes.getD j dRoute ∈ t.routes := by
      intro j hj
      rw [List.getD_eq_getElem _ _ hj]
      exact List.getElem_mem hj
    have hpair : ∀ j k, j < k → k < t.routes.length →
        routeLt (t.routes.getD j dRoute) (t.routes.getD k dRoute) := by
      intro j k hjk hk
      have hj : j < t.routes.length := lt_trans hjk hk
      rw [List.getD_eq_getElem _ _ hj, List.getD_eq_getElem _ _ hk]
      have hg := List.pairwise_iff_get.mp hs ⟨j, hj⟩ ⟨k, hk⟩ (Fin.mk_lt_mk.mpr hjk)
      simpa using hg
    have hnz : ¬ t.neighbours.getD dist 0 = 0 := by
      rw [hcount]
      have : 0 < countDist t.routes dist :=
        List.countP_pos_iff.mpr ⟨r0, hr0m, by simp [hr0d]⟩
      omega
    obtain ⟨j0, hj0lt, hj0⟩ := List.getElem_of_mem hr0m
    have hgj0 : t.routes.getD j0 dRoute = r0 := by
      rw [List.getD_eq_getElem _ _ hj0lt, hj0]
    have hj0p : decide (routeCmp (t.routes.getD j0 dRoute)
        (⟨(dist + 1) % 65536, 0, List.replicate 32 0⟩ : Route) = Ordering.lt) = true := by
      rw [hgj0]
      exact (hpchar r0 hr0m).mpr (le_of_eq hr0d)
    have hjc := (hchar j0 hj0lt).mp hj0p
    obtain ⟨c1, hc1⟩ : ∃ c1, (t.routes.countP
        fun r => decide (routeCmp r (⟨(dist + 1) % 65536, 0, List.replicate 32 0⟩ : Route)
          = Ordering.lt)) = c1 + 1 :=
      ⟨(t.routes.countP
        fun r => decide (routeCmp r (⟨(dist + 1) % 65536, 0, List.replicate 32 0⟩ : Route)
          = Ordering.lt)) - 1, by omega⟩
    have hc1lt : c1 < t.routes.length := by
      have := List.countP_le_length (l := t.routes)
        (p := fun r => decide (routeCmp r
          (⟨(dist + 1) % 65536, 0, List.replicate 32 0⟩ : Route) = Ordering.lt))
      omega
    have hpc1 : decide (routeCmp (t.routes.getD c1 dRoute)
        (⟨(dist + 1) % 65536, 0, List.replicate 32 0⟩ : Route) = Ordering.lt) = true :=
      (hchar c1 hc1lt).mpr (by omega)
    have hlec1 : (t.routes.getD c1 dRoute).dist ≤ dist :=
      (hpchar _ (hmem c1 hc1lt)).mp hpc1
    have hgec1 : dist ≤ (t.routes.getD c1 dRoute).dist := by
      rcases Nat.lt_or_ge j0 c1 with hlt | hge
      · have hlt2 := hpair j0 c1 hlt hc1lt
        have := routeLt_dist_le hlt2
        rw [hgj0, hr0d] at this
        exact this
      · have : j0 = c1 := by omega
        rw [← this, hgj0, hr0d]
    have hlast : (t.routes.getD c1 dRoute).dist = dist := le_antisymm hlec1 hgec1
    have hlk : lastK t dist = some c1 := by
      unfold lastK
      rw [if_neg hnz, binarySearch_collapse, hc1]
      show (if (t.routes.getD c1 dRoute).dist ≠ dist then none else some c1) = some c1
      rw [if_neg (not_not_intro hlast)]
    refine ⟨c1, hlk, hc1lt, hlast, ?_⟩
    intro j hj hjd
    have hpj : decide (routeCmp (t.routes.getD j dRoute)
        (⟨(dist + 1) % 65536, 0, List.replicate 32 0⟩ : Route) = Ordering.lt) = true :=
      (hpchar _ (hmem j hj)).mpr (le_of_eq hjd)
    have hjlt : j < c1 + 1 := by
      have := (hchar j hj).mp hpj
      omega
    refine ⟨by omega, ?_⟩
    rcases Nat.lt_or_ge j c1 with hlt | hge
    · exact routeLt_created_le (hpair j c1 hlt hc1lt) (by rw [hjd, hlast])
    · have : j = c1 := by omega
      rw [this]

/-- C4 witness: the last_k specification applied to a concrete table with a
two-entry bucket at distance 1. -/
theorem lastK_spec_witness :
    ((∀ r ∈ rtC4.routes, r.dist ≠ 1) → lastK rtC4 1 = none) ∧
    ((∃ r ∈ rtC4.routes, r.dist = 1) →
      ∃ i, lastK rtC4 1 = some i ∧ i < rtC4.routes.length ∧
        (rtC4.routes.getD i dRoute).dist = 1 ∧
        ∀ j, j < rtC4.routes.length → (rtC4.routes.getD j dRoute).dist = 1 →
          j ≤ i ∧ (rtC4.routes.getD j dRoute).created ≤
            (rtC4.routes.getD i dRoute).created) :=
  lastK_spec rtC4 1
    (by
      show List.Pairwise routeLt
        [(⟨1, 3, List.replicate 32 2⟩ : Route), ⟨1, 9, List.replicate 32 1⟩]
      constructor
      · intro b hb
        rw [List.mem_singleton] at hb
        subst hb
        show routeCmp _ _ = Ordering.lt
        decide
      · constructor
        · intro b hb
          exact absurd hb (List.not_mem_nil b)
        · exact List.Pairwise.nil)
    (fun d => by
      match d with
      | 0 => rfl
      | 1 => rfl
      | d + 2 =>
        show List.getD [0, 2] (d + 2) 0 = countDist rtC4.routes (d + 2)
        rw [List.getD_cons_succ, List.getD_cons_succ, List.getD_nil]
        simp [rtC4, countDist, List.countP_cons])
    (by decide) (by decide) (by decide)

/-! ### PutMessage::parse -/

set_option maxRecDepth 8192 in
/-- C2 (code bug): `PutMessage::parse` is not panic-free.  A 216-byte
all-zero buffer is long enough for the fixed header, but its
`message_type` field is 0 rather than the PUT code 146, and the source's
`assert_eq!(header.header.message_type.get(), 146)` aborts the process
instead of returning no value. -/
theorem putMessageParse_aborts_on_wrong_type :
    putMessageParse (List.replicate 216 0) = ParseOutcome.abort := by
  decide

/-! ### HELLO block parse and validate -/

/-- C9: whenever `HelloBlock::parse` returns a block,
`validate_block_store_request` on that block returns true, because parsing
already verified the same signature over the same reconstructed payload.
This holds for every digest, key-validity, verification and UTF-8 predicate,
hence in particular for the real SHA-512 and Ed25519. -/
theorem helloParse_implies_validate (digest : List Nat → List Nat)
    (pkValid : List Nat → Bool) (verify : List Nat → List Nat → List Nat → Bool)
    (utf8Valid : List Nat → Bool) (b : List Nat) (blk : HelloBlock)
    (h : helloBlockParse digest pkValid verify utf8Valid b = some blk) :
    validateBlockStoreRequest digest pkValid verify blk = true := by
  unfold helloBlockParse at h
  split_ifs at h with h1 h2 h3 h4
  injection h with h
  subst h
  simp [validateBlockStoreRequest, h2, h3]

/-- C9 witness: with every external predicate instantiated to a concrete
total stand-in, a 104-byte zero buffer parses, and the implication yields
that store-request validation succeeds on the parsed block. -/
theorem helloParse_implies_validate_witness :
    validateBlockStoreRequest digestZ (fun _ => true) (fun _ _ _ => true)
      ⟨List.replicate 32 0, List.replicate 64 0, List.replicate 8 0, []⟩ = true :=
  helloParse_implies_validate digestZ (fun _ => true) (fun _ _ _ => true) (fun _ => true)
    (List.replicate 104 0)
    ⟨List.replicate 32 0, List.replicate 64 0, List.replicate 8 0, []⟩
    (by decide)

/-! ### The HELLO address iterator -/

theorem addrsNext_of_not_mem : ∀ s : List Nat, (0 : Nat) ∉ s → addrsNext s = none
  | [], _ => rfl
  | c :: s, h => by
    have hc : c ≠ 0 := fun hc => h (hc ▸ List.mem_cons_self c s)
    have hs : (0 : Nat) ∉ s := fun hs => h (List.mem_cons_of_mem c hs)
    simp [addrsNext, hc, addrsNext_of_not_mem s hs]

theorem addrsNext_split : ∀ (pre post : List Nat), (0 : Nat) ∉ pre →
    addrsNext (pre ++ 0 :: post) = some (pre, post)
  | [], post, _ => by simp [addrsNext]
  | c :: pre, post, h => by
    have hc : c ≠ 0 := fun hc => h (hc ▸ List.mem_cons_self c pre)
    have hpre : (0 : Nat) ∉ pre := fun hs => h (List.mem_cons_of_mem c hs)
    simp [addrsNext, hc, addrsNext_split pre post hpre]

theorem addrsNext_length : ∀ (s a rest : List Nat),
    addrsNext s = some (a, rest) → a.length + rest.length + 1 = s.length
  | [], _, _, h => by simp [addrsNext] at h
  | c :: s, a, rest, h => by
    by_cases hc : c = 0
    · subst hc
      simp only [addrsNext, if_pos rfl] at h
      injection h with h
      injection h with h1 h2
      subst h1
      subst h2
      simp
    · simp only [addrsNext, if_neg hc] at h
      cases hs : addrsNext s with
      | none =>
        rw [hs] at h
        exact Option.noConfusion h
      | some p =>
        rw [hs] at h
        injection h with h
        obtain ⟨a2, rest2⟩ := p
        have := addrsNext_length s a2 rest2 hs
        injection h with h1 h2
        subst h2
        subst h1
        simp
        omega

theorem addrsAllGo_nil : ∀ fuel : Nat, addrsAllGo fuel [] = []
  | 0 => rfl
  | _ + 1 => rfl

theorem addrsAllGo_fuel : ∀ (f1 f2 : Nat) (s : List Nat),
    s.length ≤ f1 → s.length ≤ f2 → addrsAllGo f1 s = addrsAllGo f2 s
  | 0, f2, s, h1, _ => by
    have : s = [] := List.eq_nil_of_length_eq_zero (by omega)
    subst this
    rw [addrsAllGo_nil, addrsAllGo_nil]
  | f1 + 1, f2, s, h1, h2 => by
    cases s with
    | nil => rw [addrsAllGo_nil, addrsAllGo_nil]
    | cons c s0 =>
      match f2, h2 with
      | f2 + 1, h2 =>
        show (match addrsNext (c :: s0) with
          | none => []
          | some (a, rest) => a :: addrsAllGo f1 rest) =
          (match addrsNext (c :: s0) with
          | none => []
          | some (a, rest) => a :: addrsAllGo f2 rest)
        cases hn : addrsNext (c :: s0) with
        | none => rfl
        | some p =>
          obtain ⟨a, rest⟩ := p
          have hlen := addrsNext_length _ _ _ hn
          have hs0 : a.length + rest.length + 1 = s0.length + 1 := by simpa using hlen
          have hf1 : s0.length + 1 ≤ f1 + 1 := by simpa using h1
          have hf2 : s0.length + 1 ≤ f2 + 1 := by simpa using h2
          simp only []
          rw [addrsAllGo_fuel f1 f2 rest (by omega) (by omega)]

theorem addrsAll_of_not_mem (s : List Nat) (h : (0 : Nat) ∉ s) : addrsAll s = [] := by
  unfold addrsAll
  cases s with
  | nil => rfl
  | cons c s0 =>
    show (match addrsNext (c :: s0) with
      | none => []
      | some (a, rest) => a :: addrsAllGo (c :: s0).length.pred rest) = []
    rw [addrsNext_of_not_mem _ h]

theorem addrsAll_split (pre post : List Nat) (h : (0 : Nat) ∉ pre) :
    addrsAll (pre ++ 0 :: post) = pre :: addrsAll post := by
  unfold addrsAll
  have hlen : (pre ++ 0 :: post).length = pre.length + post.length + 1 := by
    simp
    omega
  rw [hlen]
  show (match addrsNext (pre ++ 0 :: post) with
    | none => []
    | some (a, rest) => a :: addrsAllGo (pre.length + post.length) rest) =
    pre :: addrsAllGo post.length post
  rw [addrsNext_split pre post h]
  simp only []
  rw [addrsAllGo_fuel (pre.length + post.length) post.length post (by omega) (le_refl _)]

/-- C10: the HELLO address iterator yields exactly the NUL-terminated
segments.  `next` returns none when the section has no NUL byte; on a
section `pre ++ 0 :: post` with no NUL in `pre` it yields `pre` and advances
to `post`; consequently the full iteration yields nothing for a NUL-free
section (trailing bytes are never yielded) and otherwise yields the segment
before each NUL in order. -/
theorem addrs_iterator_spec :
    (∀ s : List Nat, (0 : Nat) ∉ s → addrsNext s = none) ∧
    (∀ pre post : List Nat, (0 : Nat) ∉ pre →
      addrsNext (pre ++ 0 :: post) = some (pre, post)) ∧
    (∀ s : List Nat, (0 : Nat) ∉ s → addrsAll s = []) ∧
    (∀ pre post : List Nat, (0 : Nat) ∉ pre →
      addrsAll (pre ++ 0 :: post) = pre :: addrsAll post) :=
  ⟨addrsNext_of_not_mem, addrsNext_split, addrsAll_of_not_mem, addrsAll_split⟩

/-- C10 witness: the iterator laws evaluated on the concrete section
`[104, 0, 105, 106]` — one address `[104]` is yielded and the NUL-free
trailing bytes `[105, 106]` are not. -/
theorem addrs_iterator_spec_witness :
    addrsNext [104, 105] = none ∧
    addrsNext ([104] ++ 0 :: [105, 106]) = some ([104], [105, 106]) ∧
    addrsAll [105, 106] = [] ∧
    addrsAll ([104] ++ 0 :: [105, 106]) = [104] :: addrsAll [105, 106] :=
  ⟨addrs_iterator_spec.1 [104, 105] (by decide),
   addrs_iterator_spec.2.1 [104] [105, 106] (by decide),
   addrs_iterator_spec.2.2.1 [105, 106] (by decide),
   addrs_iterator_spec.2.2.2 [104] [105, 106] (by decide)⟩

/-! ### The Result Filter -/

theorem bfTest_zero_eq_false (L mask : Nat) (key : List Nat)
    (hk : keyWords key ≠ []) :
    bfTestInner (List.replicate L 0) mask key = false := by
  cases h : bfTestInner (List.replicate L 0) mask key with
  | false => rfl
  | true =>
    exfalso
    obtain ⟨w, hw⟩ := List.exists_mem_of_ne_nil _ hk
    have hbit := (bfTest_true_iff _ _ _).mp h w hw
    rw [getD_replicate_zero] at hbit
    simp [Nat.zero_testBit] at hbit

theorem bfInsert_test_true (bytes : List Nat) (mask : Nat) (key : List Nat)
    (hm : mask < bytes.length) :
    bfTestInner (bfInsertInner bytes mask key) mask key = true := by
  rw [bfTest_true_iff]
  intro w hw
  exact foldl_insertStep_sets mask (keyWords key) bytes hm w hw

theorem keyWords_xorBytes_ne_nil (x y : List Nat) (hx : x.length = 64)
    (hy : y.length = 64) : keyWords (xorBytes x y) ≠ [] := by
  apply keyWords_ne_nil
  rw [xorBytes, List.length_zipWith, hx, hy]
  exact min_self 64

theorem nextPow2Go_pow (n : Nat) :
    ∀ (fuel j c : Nat), j ≤ c → c ≤ j + fuel → c ≤ 31 → n ≤ 2 ^ c →
      ∃ k, k ≤ c ∧ nextPow2Go n fuel (2 ^ j) = 2 ^ k
  | 0, j, c, hjc, hcf, hc31, hn => by
    have hj : j = c := by omega
    subst hj
    refine ⟨j, le_refl j, ?_⟩
    show 2 ^ j % 2 ^ 32 = 2 ^ j
    exact Nat.mod_eq_of_lt (Nat.pow_lt_pow_right (by omega) (by omega))
  | fuel + 1, j, c, hjc, hcf, hc31, hn => by
    by_cases hle : n ≤ 2 ^ j
    · refine ⟨j, hjc, ?_⟩
      show (if n ≤ 2 ^ j then 2 ^ j else nextPow2Go n fuel (2 * 2 ^ j)) = 2 ^ j
      rw [if_pos hle]
    · have hlt : 2 ^ j < 2 ^ c := lt_of_lt_of_le (Nat.not_le.mp hle) hn
      have hjc2 : j + 1 ≤ c := by
        have := (Nat.pow_lt_pow_iff_right (by omega : 1 < 2)).mp hlt
        omega
      obtain ⟨k, hk, hres⟩ := nextPow2Go_pow n fuel (j + 1) c hjc2 (by omega) hc31 hn
      refine ⟨k, hk, ?_⟩
      show (if n ≤ 2 ^ j then 2 ^ j else nextPow2Go n fuel (2 * 2 ^ j)) = 2 ^ k
      rw [if_neg hle]
      have hp : 2 * 2 ^ j = 2 ^ (j + 1) := by
        rw [Nat.pow_succ]
        ring
      rw [hp, hres]

theorem nextPow2u32_pow (fs : Nat) (h : fs ≤ 2 ^ 27) :
    ∃ k, k ≤ 27 ∧ nextPow2u32 fs = 2 ^ k := by
  obtain ⟨k, hk, hres⟩ :=
    nextPow2Go_pow fs 32 0 27 (by omega) (by omega) (by omega) (by simpa using h)
  refine ⟨k, hk, ?_⟩
  rw [nextPow2u32, ← hres]
  norm_num

theorem and_two_pow_sub_one_eq_zero (m : Nat) : 2 ^ m &&& (2 ^ m - 1) = 0 := by
  apply Nat.eq_of_testBit_eq
  intro i
  rw [Nat.testBit_and, Nat.testBit_two_pow, Nat.testBit_two_pow_sub_one,
    Nat.zero_testBit]
  by_cases h : m = i
  · subst h
    simp
  · simp [h]

theorem isPow2u_pow (m : Nat) : isPow2u (2 ^ m) = true := by
  unfold isPow2u
  rw [Bool.and_eq_true]
  constructor
  · rw [bne_iff_ne]
    exact (Nat.two_pow_pos m).ne'
  · rw [beq_iff_eq]
    exact and_two_pow_sub_one_eq_zero m

/-- C7 (amended): the Result Filter round trip holds for every
`filter_size ≤ 2 ^ 27` — the sizes for which the u32 bit-budget computation
`next_power_of_two(filter_size) * 16` does not overflow — and every mutator:
`filter_result` on a freshly set-up filter returns `More` for the block's
filter key, and after the caller inserts that key into the embedded bloom
filter, the same call returns `Duplicate`. -/
theorem helloResultFilter_roundTrip (digest : List Nat → List Nat)
    (hdig : ∀ x, (digest x).length = 64) (addrs : List Nat) (fs mutator : Nat)
    (hfs : fs ≤ 2 ^ 27) :
    filterResult digest addrs (setupResultFilter fs mutator) = FilterResult.more ∧
    filterResult digest addrs
      ((setupResultFilter fs mutator).take 4 ++
        bfInsertInner ((setupResultFilter fs mutator).drop 4)
          (((setupResultFilter fs mutator).drop 4).length - 1)
          (xorBytes (digest ((setupResultFilter fs mutator).take 4)) (digest addrs))) =
      FilterResult.duplicate := by
  obtain ⟨k, hk, he⟩ := nextPow2u32_pow fs hfs
  have hb : nextPow2u32 fs * 16 % 2 ^ 32 / 4 = 2 ^ (k + 2) := by
    rw [he]
    have h1 : 2 ^ k * 16 = 2 ^ (k + 4) := by
      rw [pow_add]
      norm_num
    rw [h1, Nat.mod_eq_of_lt (Nat.pow_lt_pow_right (by omega) (by omega))]
    have h2 : (2 : Nat) ^ (k + 4) = 2 ^ (k + 2) * 4 := by
      rw [pow_add, pow_add]
      ring
    rw [h2, Nat.mul_div_cancel _ (by norm_num)]
  have htake : (setupResultFilter fs mutator).take 4 = toBe4 mutator := by
    unfold setupResultFilter
    exact List.take_left' rfl
  have hdrop : (setupResultFilter fs mutator).drop 4 =
      List.replicate (2 ^ (k + 2)) 0 := by
    unfold setupResultFilter
    rw [List.drop_left' (show (toBe4 mutator).length = 4 from rfl), hb]
  have hdlen : ((setupResultFilter fs mutator).drop 4).length = 2 ^ (k + 2) := by
    rw [hdrop, List.length_replicate]
  have hrflen : ¬ (setupResultFilter fs mutator).length < 4 := by
    unfold setupResultFilter
    rw [List.length_append]
    show ¬ 4 + _ < 4
    omega
  have hkey : ∀ m a : List Nat,
      keyWords (xorBytes (digest m) (digest a)) ≠ [] :=
    fun m a => keyWords_xorBytes_ne_nil _ _ (hdig m) (hdig a)
  constructor
  · unfold filterResult
    rw [if_neg hrflen, hdlen, isPow2u_pow, if_pos rfl, hdrop]
    rw [bfTest_zero_eq_false _ _ _ (hkey _ _), if_neg (by simp)]
  · have h2take : ((setupResultFilter fs mutator).take 4 ++
        bfInsertInner ((setupResultFilter fs mutator).drop 4)
          (((setupResultFilter fs mutator).drop 4).length - 1)
          (xorBytes (digest ((setupResultFilter fs mutator).take 4))
            (digest addrs))).take 4 = (setupResultFilter fs mutator).take 4 := by
      apply List.take_left'
      rw [htake]
      rfl
    have h2drop : ((setupResultFilter fs mutator).take 4 ++
        bfInsertInner ((setupResultFilter fs mutator).drop 4)
          (((setupResultFilter fs mutator).drop 4).length - 1)
          (xorBytes (digest ((setupResultFilter fs mutator).take 4))
            (digest addrs))).drop 4 =
        bfInsertInner ((setupResultFilter fs mutator).drop 4)
          (((setupResultFilter fs mutator).drop 4).length - 1)
          (xorBytes (digest ((setupResultFilter fs mutator).take 4))
            (digest addrs)) := by
      apply List.drop_left'
      rw [htake]
      rfl
    have h2dlen : (((setupResultFilter fs mutator).take 4 ++
        bfInsertInner ((setupResultFilter fs mutator).drop 4)
          (((setupResultFilter fs mutator).drop 4).length - 1)
          (xorBytes (digest ((setupResultFilter fs mutator).take 4))
            (digest addrs))).drop 4).length = 2 ^ (k + 2) := by
      rw [h2drop, bfInsertInner_length, hdlen]
    have h2rflen : ¬ ((setupResultFilter fs mutator).take 4 ++
        bfInsertInner ((setupResultFilter fs mutator).drop 4)
          (((setupResultFilter fs mutator).drop 4).length - 1)
          (xorBytes (digest ((setupResultFilter fs mutator).take 4))
            (digest addrs))).length < 4 := by
      rw [List.length_append, htake]
      show ¬ 4 + _ < 4
      omega
    unfold filterResult
    rw [if_neg h2rflen, h2dlen, isPow2u_pow, if_pos rfl, h2drop, h2take, hdlen]
    rw [bfInsert_test_true _ _ _
        (by rw [hdlen]; exact Nat.sub_lt (Nat.two_pow_pos _) one_pos),
      if_pos rfl]

/-- C7 counterexample: the round trip does not hold for every `filter_size`.
At `filter_size = 2 ^ 28` the u32 computation `next_power_of_two(fs) * 16`
wraps to 0, the allocated Result Filter is only the 4 mutator bytes with an
empty (non-power-of-two-length) bloom section, and `filter_result` returns
`Irrelevant` instead of `More`. -/
theorem filterResult_overflow_counterexample :
    filterResult digestZ [] (setupResultFilter (2 ^ 28) 0) =
      FilterResult.irrelevant := by
  decide

/-- C7 witness: the amended round trip evaluated at `filter_size = 0`,
mutator 0, the zero digest stand-in and an empty address section. -/
theorem helloResultFilter_roundTrip_witness :
    filterResult digestZ [] (setupResultFilter 0 0) = FilterResult.more ∧
    filterResult digestZ []
      ((setupResultFilter 0 0).take 4 ++
        bfInsertInner ((setupResultFilter 0 0).drop 4)
          (((setupResultFilter 0 0).drop 4).length - 1)
          (xorBytes (digestZ ((setupResultFilter 0 0).take 4)) (digestZ []))) =
      FilterResult.duplicate :=
  helloResultFilter_roundTrip digestZ (fun _ => rfl) [] 0 0 (by norm_num)
